import Mathlib

set_option maxRecDepth 100000

/-!
Verification of the InfiniLM core against its specification.

The development shallowly embeds three source files:
* `src/tokenizer/src/vocab_txt.rs`   — byte-piece longest-prefix tokenizer,
* `src/transformer-cpu/src/lib.rs`   — `duplicate_cache` and the decoding-head
  row compaction of `Transformer::decode`,
* `src/web-api/src/manager.rs`       — the LRU session manager (`infer`,
  `restore`, `fork`, `drop_`).

Texts and vocabulary pieces are byte lists (`List Nat`, each element < 256).
Rust panics (failed `assert!`, out-of-range string slicing, `unwrap` on `Err`)
are modelled as `Option.none` results.
-/

/-! Definitions: the shallow embedding of the program. -/

/-- Embedding of the `VocabTxt` tokenizer state.  The source struct holds the
word list, a patricia trie over the words, the maximal piece length and the
byte-piece decoder; the trie and `max_piece_len` are derived from `words`
exactly as `VocabTxt::new` builds them, so only `words` is carried. -/
structure VocabTxt where
  words : List (List Nat)
deriving DecidableEq

/-- Embedding of `max_piece_len` as computed in `VocabTxt::new`: running maximum of the
piece byte lengths. -/
def VocabTxt.max_piece_len (v : VocabTxt) : Nat :=
  v.words.foldl (fun a p => max a p.length) 0

/-- The patricia-trie lookup `trie.get_longest_common_prefix(piece)`: among
the vocabulary words that are byte prefixes of `w`, return the longest
together with its token id (on equal length a later insertion overwrote an
earlier one, mirroring `PatriciaMap::insert`). -/
def vocabLookup (words : List (List Nat)) (w : List Nat) : Option (Nat × List Nat) :=
  words.enum.foldl
    (fun best e =>
      if e.2.isPrefixOf w then
        match best with
        | none => some e
        | some b => if b.2.length ≤ e.2.length then some e else b
      else best)
    none

/-- Rust `str::is_char_boundary` on a byte list: position `0`, the end of the
list, or a byte that is not a UTF-8 continuation byte. -/
def isCharBoundary (bs : List Nat) (i : Nat) : Bool :=
  if i = 0 then true
  else
    match bs.drop i with
    | [] => decide (i = bs.length)
    | b :: _ => decide (b < 128 ∨ 192 ≤ b)

/-- Byte length of the UTF-8 code point starting with lead byte `b`, as
consumed by `text.chars().next()`.  A continuation byte cannot start a code
point of a valid `&str`, so the `b < 192` fallback value is never reached on
the inputs the source can see. -/
def charLen (b : Nat) : Nat :=
  if b < 128 then 1
  else if b < 192 then 1
  else if b < 224 then 2
  else if b < 240 then 3
  else 4

/-- The `while !text.is_empty()` loop of `VocabTxt::encode`, fuelled by the
input length (each iteration consumes at least one byte unless the trie
matches an empty piece, which would loop forever in the source and is
modelled as `none`, like the other panic outcomes).  The `&text[..max_piece_len]`
slice panics when `max_piece_len` is not a char boundary of `text`; that
outcome is `none`. -/
def encodeLoop (words : List (List Nat)) (maxLen : Nat) : Nat → List Nat → Option (List Nat)
  | _, [] => some []
  | 0, _ :: _ => none
  | fuel + 1, b :: rest =>
    if (b :: rest).length > maxLen && !isCharBoundary (b :: rest) maxLen then
      none
    else
      let w := if (b :: rest).length > maxLen then (b :: rest).take maxLen else b :: rest
      match vocabLookup words w with
      | some tp => (encodeLoop words maxLen fuel ((b :: rest).drop tp.2.length)).map (tp.1 :: ·)
      | none =>
        (encodeLoop words maxLen fuel ((b :: rest).drop (charLen b))).map
          ((((b :: rest).take (charLen b)).map (· + 3)) ++ ·)

/-- Embedding of `VocabTxt::encode`: optional `bos` (id 1) in front, the matching loop,
optional `eos` (id 2) at the end.  The `assert_eq!(tokens[0], self.bos())`
of the source always holds when `bos` is set, so it does not alter the
result. -/
def VocabTxt.encode (v : VocabTxt) (text : List Nat) (bos eos : Bool) : Option (List Nat) :=
  (encodeLoop v.words v.max_piece_len text.length text).map
    (fun ts => (if bos then [1] else []) ++ ts ++ (if eos then [2] else []))

/-- Hexadecimal digit value, for the `<0xNN>` placeholder pieces. -/
def hexVal (c : Nat) : Option Nat :=
  if 48 ≤ c ∧ c ≤ 57 then some (c - 48)
  else if 65 ≤ c ∧ c ≤ 70 then some (c - 55)
  else if 97 ≤ c ∧ c ≤ 102 then some (c - 87)
  else none

/-- Modelled from the spec: the `ByteDecoder` (source file not under `src/`)
performs "control-byte unescaping of the reserved byte-fallback range
(`<0xNN>` placeholder pieces → raw byte)"; any other piece is returned
verbatim. -/
def byteDecode (p : List Nat) : List Nat :=
  match p with
  | [60, 48, 120, h1, h2, 62] =>
    match hexVal h1, hexVal h2 with
    | some a, some b => [16 * a + b]
    | _, _ => p
  | _ => p

/-- Embedding of `VocabTxt::decode`: look the token up in the word list and unescape byte
pieces.  An out-of-range token panics in the source (`self.words[token]`);
the claims only use in-range tokens, `[]` stands for that panic. -/
def VocabTxt.decode (v : VocabTxt) (t : Nat) : List Nat :=
  byteDecode (v.words.getD t [])

/-- A vocabulary with full byte fallback: reserved pieces for unk/bos/eos at
ids 0–2 and the 256 placeholder pieces `<0x00>` … `<0xFF>` at ids 3–258. -/
def hexDigit (d : Nat) : Nat := if d < 10 then 48 + d else 55 + d

/-- The placeholder piece `<0xNN>` for byte `b` (bytes of `<`, `0`, `x`, two
uppercase hex digits, `>`). -/
def bytePiece (b : Nat) : List Nat :=
  [60, 48, 120, hexDigit (b / 16), hexDigit (b % 16), 62]

/-- Concrete byte-fallback vocabulary: `<unk>`, `<s>`, `</s>`, then the 256
byte placeholders. -/
def byteVocab : VocabTxt :=
  ⟨[[60, 117, 110, 107, 62], [60, 115, 62], [60, 47, 115, 62]]
    ++ (List.range 256).map bytePiece⟩

/-- The trie lookup step function of `vocabLookup`. -/
def lookupStep (w : List Nat) (best : Option (Nat × List Nat)) (e : Nat × List Nat) :
    Option (Nat × List Nat) :=
  if e.2.isPrefixOf w then
    match best with
    | none => some e
    | some b => if b.2.length ≤ e.2.length then some e else b
  else best

/-- Embedding of `DecodingMeta` from `causal_lm`: number of hidden rows of a query's
block and how many trailing rows of it must be decoded. -/
structure DecodingMeta where
  num_query : Nat
  num_decode : Nat
deriving DecidableEq

/-- Total number of hidden-state rows of a meta list. -/
def totalQuery (ms : List DecodingMeta) : Nat := (ms.map (·.num_query)).sum

/-- Total number of decoded rows `M` of a meta list. -/
def totalDecode (ms : List DecodingMeta) : Nat := (ms.map (·.num_decode)).sum

/-- First loop of `Transformer::decode`: advance `begin` over blocks with
`num_decode == 0`; at the first block that decodes, set `src = dst = begin`
(just past that block), pull `begin` back by its `num_decode`, and break
with the remaining metas.  If the iterator is exhausted the mutable
`src`/`dst` keep their initial `0`. -/
def decodeScan : List DecodingMeta → Nat → Nat × Nat × Nat × List DecodingMeta
  | [], bg => (bg, 0, 0, [])
  | m :: ms, bg =>
    if 0 < m.num_decode then
      (bg + m.num_query - m.num_decode, bg + m.num_query, bg + m.num_query, ms)
    else decodeScan ms (bg + m.num_query)

/-- The inner `for _ in 0..num_decode` loop: `buf.copy_within` of one row
from `src` to `dst`, incrementing both. -/
def copyRows {α : Type} : Nat → Nat → Nat → (Nat → α) → Nat × Nat × (Nat → α)
  | 0, src, dst, f => (src, dst, f)
  | k + 1, src, dst, f => copyRows k (src + 1) (dst + 1) (Function.update f dst (f src))

/-- Second loop of `Transformer::decode`: for each remaining meta, skip the
non-decoded head of the block (`src += num_query - num_decode`), then either
copy the `num_decode` trailing rows down to `dst` (when `src > dst`) or
just advance both cursors. -/
def decodeMove {α : Type} : List DecodingMeta → Nat → Nat → (Nat → α) → Nat × Nat × (Nat → α)
  | [], src, dst, f => (src, dst, f)
  | m :: ms, src, dst, f =>
    let src' := src + (m.num_query - m.num_decode)
    if src' > dst then
      let c := copyRows m.num_decode src' dst f
      decodeMove ms c.1 c.2.1 c.2.2
    else decodeMove ms (src' + m.num_decode) (dst + m.num_decode) f

/-- Embedding of `Transformer::decode` at the level of whole rows.  The hidden state is a
list of rows (one per query token); the buffer is its row store, `d0`
standing for out-of-range reads.  After the two compaction loops the source
returns `[0, d]` when `dst == begin`; otherwise it slices rows
`[begin, dst)` — a slice with inverted bounds (`begin > dst`) underflows
and panics, modelled as `none` — and produces logits of shape
`[dst - begin, V]` from them (`V` = `lm_head.shape()[1]`, `d` = hidden
size).  The result carries the compacted rows the head runs on and the
shape of the returned tensor; the `rms_norm`/`mat_mul` numerics on those
rows are not modelled (no claim concerns the logits values). -/
def Transformer.decode {α : Type} (d V : Nat) (metas : List DecodingMeta) (rows : List α)
    (d0 : α) : Option (List α × Nat × Nat) :=
  let s := decodeScan metas 0
  let t := decodeMove s.2.2.2 s.2.1 s.2.2.1 (fun p => rows.getD p d0)
  if t.2.1 = s.1 then some ([], 0, d)
  else if s.1 > t.2.1 then none
  else some ((List.range (t.2.1 - s.1)).map (fun i => t.2.2 (s.1 + i)), t.2.1 - s.1, V)

/-- The rows the specification says decode keeps: the trailing `num_decode`
rows of each query's block, in block order. -/
def trailingRows {α : Type} : List DecodingMeta → List α → List α
  | [], _ => []
  | m :: ms, rows =>
    ((rows.take m.num_query).drop (m.num_query - m.num_decode))
      ++ trailingRows ms (rows.drop m.num_query)

/-- The trailing rows as read off an untouched buffer `f0`, block bases
starting at `b`. -/
def bufTrailing {α : Type} : List DecodingMeta → (Nat → α) → Nat → List α
  | [], _, _ => []
  | m :: ms, f0, b =>
    (List.range m.num_decode).map (fun i => f0 (b + (m.num_query - m.num_decode) + i))
      ++ bufTrailing ms f0 (b + m.num_query)

/-- A tensor over a flat buffer, as used by `Transformer::duplicate_cache`:
data type code, shape, and a row-major contiguous buffer addressed by flat
offset. -/
structure Tensor (α : Type) where
  dtype : Nat
  shape : List Nat
  data : Nat → α

/-- Row-major strides of a contiguous tensor: each dimension strides by the
product of the dimensions after it. -/
def stridesOf : List Nat → List Nat
  | [] => []
  | _ :: ds => ds.prod :: stridesOf ds

/-- Flat offset of a multi-index under the given strides. -/
def flatIndex (strides idx : List Nat) : Nat :=
  (List.zipWith (· * ·) strides idx).sum

/-- All multi-indices of a rectangular shape, in lexicographic order — the
iteration space of a strided rectangular copy. -/
def allIdx : List Nat → List (List Nat)
  | [] => [[]]
  | n :: ns => (List.range n).flatMap (fun i => (allIdx ns).map (i :: ·))

/-- Embedding of `Transformer::duplicate_cache`: destructure the shape as
`[nlayers, 2, nkvh, max_seq_len, dh]` (any other shape panics), assert
`pos <= max_seq_len`, allocate a fresh tensor of the same dtype and shape
(`Blob::new` zero-fills; `d0` stands for the fill element), and `reform_to`
the prefix slice `[.., .., .., ..pos, ..]` of the source into the same slice
of the fresh tensor.  Source and destination are contiguous with identical
shapes, so both sides of the copy use the same strides and offsets. -/
def Transformer.duplicate_cache {α : Type} (cache : Tensor α) (pos : Nat) (d0 : α) :
    Option (Tensor α) :=
  match cache.shape with
  | [nlayers, 2, nkvh, max_seq_len, dh] =>
    if pos ≤ max_seq_len then
      some { dtype := cache.dtype, shape := cache.shape,
             data :=
               (allIdx [nlayers, 2, nkvh, pos, dh]).foldl
                 (fun f i =>
                   Function.update f (flatIndex (stridesOf cache.shape) i)
                     (cache.data (flatIndex (stridesOf cache.shape) i)))
                 (fun _ => d0) }
    else none
  | _ => none

/-- Sampling parameters of a session (`temperature`, `top_k`, `top_p`).
The two float fields are carried opaquely (never computed with), so an
integer stand-in is used. -/
structure SampleArgs where
  temperature : Int
  top_k : Nat
  top_p : Int
deriving DecidableEq

/-- Modelled from the spec: `service::Session` (not under `src/`) keeps the
dialog turns (token ids per turn, `dialog_pos` = number of turns, §3) and
the sampling parameters; the KV cache's valid prefix is aligned with the
turns and is subsumed by them here. -/
structure Session where
  turns : List (List Nat)
  sample : SampleArgs
deriving DecidableEq

/-- The session's dialog position: turns appended so far. -/
def Session.dialog_pos (s : Session) : Nat := s.turns.length

/-- Modelled from the spec: `revert(p)` truncates the dialog to `p` turns;
it fails (`Err`) when the target is out of range. -/
def Session.revert (s : Session) (p : Nat) : Option Session :=
  if p ≤ s.turns.length then some { s with turns := s.turns.take p } else none

/-- The external collaborators of a generation task: the tokenizer run on a
message and the transformer/sampler producing the assistant turn and the
decoded fragments.  Claims hold for every such collaborator. -/
structure Gen where
  tok : String → List Nat
  reply : Session → List Nat
  frags : Session → List String

/-- Modelled from the spec: `session.extend(messages)` appends each message
as one dialog turn. -/
def Session.extend (s : Session) (g : Gen) (msgs : List String) : Session :=
  { s with turns := s.turns ++ msgs.map g.tok }

/-- Modelled from the spec: `session.chat()` streams decoded fragments and
appends the generated assistant turn; it does not touch the sampling
parameters. -/
def Session.chat (s : Session) (g : Gen) : List String × Session :=
  (g.frags s, { s with turns := s.turns ++ [g.reply s] })

/-- Modelled from the spec: `service.launch()` returns a fresh session with
empty dialog and default sampling parameters. -/
def Service.launch : Session := { turns := [], sample := ⟨0, 0, 0⟩ }

/-- Embedding of `Session::fork`: a deep copy (independent cache prefix and state); in
the value model the copy is the same value. -/
def Session.fork (s : Session) : Session := s

/-- The error kinds of `web-api/src/schemas.rs` used by the manager. -/
inductive Error where
  | SessionNotFound
  | SessionBusy
  | SessionDuplicate
  | InvalidDialogPos (current : Nat)
deriving DecidableEq

/-- The manager state: the LRU map (most recent first) and its optional
capacity (`LruCache::unbounded` when `none`; the constructor asserts a
`some` capacity is nonzero). -/
structure ServiceManager where
  entries : List (String × Option Session)
  cap : Option Nat
deriving DecidableEq

/-- Value stored under `id`: `none` if absent, `some none` if busy,
`some (some s)` if idle. -/
def ServiceManager.lookupSlot (st : ServiceManager) (id : String) : Option (Option Session) :=
  (st.entries.find? (fun e => e.1 == id)).map (·.2)

/-- LRU promotion on access (`get_mut` / `get_or_insert_mut`): move the
entry to the front. -/
def ServiceManager.promote (st : ServiceManager) (id : String) : ServiceManager :=
  match st.entries.find? (fun e => e.1 == id) with
  | none => st
  | some e => { st with entries := e :: st.entries.eraseP (fun x => x.1 == id) }

/-- Overwrite the value stored under `id` (the `&mut` slot of the entry). -/
def ServiceManager.setSlot (st : ServiceManager) (id : String) (v : Option Session) :
    ServiceManager :=
  { st with entries := st.entries.map (fun e => if e.1 == id then (e.1, v) else e) }

/-- LRU eviction: when an insertion pushed the map over capacity, the least
recently used entry (the back) is removed. -/
def ServiceManager.trim (st : ServiceManager) : ServiceManager :=
  match st.cap with
  | none => st
  | some c => if c < st.entries.length then { st with entries := st.entries.dropLast } else st

/-- Embedding of `LruCache::get_or_insert_mut(id, launch)` followed by `.take()`:
promote (inserting a fresh idle session if absent, evicting on overflow),
then move the session out of the slot, leaving `None` (busy). -/
def ServiceManager.getOrInsertTake (st : ServiceManager) (id : String) (fresh : Session) :
    Option Session × ServiceManager :=
  match st.lookupSlot id with
  | some v => (v, (st.promote id).setSlot id none)
  | none =>
    (some fresh,
      (ServiceManager.trim { st with entries := (id, some fresh) :: st.entries }).setSlot id none)

/-- Embedding of `ServiceManager::restore`: if the id is still in the map (`get_mut`
promotes it), put the session back, asserting the slot was empty — a
non-empty slot fails the `assert!` (modelled `none`); if the id was dropped
meanwhile, the session is discarded. -/
def ServiceManager.restore (st : ServiceManager) (id : String) (s : Session) :
    Option ServiceManager :=
  match st.lookupSlot id with
  | none => some st
  | some none => some ((st.promote id).setSlot id (some s))
  | some (some _) => none

/-- The `Infer` request of `web-api/src/schemas.rs` (message roles are not
read by the manager, so a message is its content string). -/
structure Infer where
  inputs : List String
  session_id : Option String
  dialog_pos : Option Nat
  temperature : Option Int
  top_k : Option Nat
  top_p : Option Int

/-- The sampling-override prologue of the inner `async fn infer`: each
provided override overwrites the stored parameter. -/
def applySample (t : Option Int) (k : Option Nat) (p : Option Int) (s : Session) : Session :=
  let s1 := match t with
    | some t => { s with sample := { s.sample with temperature := t } }
    | none => s
  let s2 := match k with
    | some k => { s1 with sample := { s1.sample with top_k := k } }
    | none => s1
  match p with
  | some p => { s2 with sample := { s2.sample with top_p := p } }
  | none => s2

/-- The body of the inner `async fn infer`: apply sampling overrides,
extend the dialog with the incoming messages, and chat (streaming
fragments) only when the dialog now ends with a user turn (`dialog_pos`
odd); otherwise generation is skipped and the channel stays empty. -/
def inferBody (g : Gen) (t : Option Int) (k : Option Nat) (p : Option Int)
    (msgs : List String) (s : Session) : List String × Session :=
  let s1 := (applySample t k p s).extend g msgs
  if s1.dialog_pos % 2 = 1 then s1.chat g else ([], s1)

/-- Embedding of `ServiceManager::infer`.  The four match arms on
`(session_id, dialog_pos.unwrap_or(0))` of the source, with the spawned
generation task run to completion and the returned channel's total content
as the `ok` payload.  `none` models a panic (`revert(0).unwrap()` or the
restore assert). -/
def ServiceManager.infer (st : ServiceManager) (g : Gen) (r : Infer) :
    Option (Except Error (List String) × ServiceManager) :=
  match r.session_id, r.dialog_pos.getD 0 with
  | some id, 0 =>
    let gt := st.getOrInsertTake id Service.launch
    match gt.1 with
    | none => some (.error .SessionBusy, gt.2)
    | some s =>
      match s.revert 0 with
      | none => none
      | some s0 =>
        let fs := inferBody g r.temperature r.top_k r.top_p r.inputs s0
        (gt.2.restore id fs.2).map (fun st2 => (.ok fs.1, st2))
  | some id, p + 1 =>
    match st.lookupSlot id with
    | none => some (.error .SessionNotFound, st)
    | some none => some (.error .SessionBusy, (st.promote id).setSlot id none)
    | some (some s) =>
      let st1 := (st.promote id).setSlot id none
      match s.revert (p + 1) with
      | none => (st1.restore id s).map (fun st2 => (.error (.InvalidDialogPos s.dialog_pos), st2))
      | some s1 =>
        let fs := inferBody g r.temperature r.top_k r.top_p r.inputs s1
        (st1.restore id fs.2).map (fun st2 => (.ok fs.1, st2))
  | none, 0 =>
    if r.inputs.length % 2 = 1 then
      some (.ok (inferBody g r.temperature r.top_k r.top_p r.inputs Service.launch).1, st)
    else some (.ok [], st)
  | none, _ + 1 => some (.error (.InvalidDialogPos 0), st)

/-- Embedding of `ServiceManager::fork`: reject an existing target id; otherwise require
the source to exist and be idle, deep-copy it, and push the copy under the
new id, silently dropping any entry evicted by the capacity bound. -/
def ServiceManager.fork (st : ServiceManager) (session_id new_session_id : String) :
    Except Error Unit × ServiceManager :=
  if (st.lookupSlot new_session_id).isSome then (.error .SessionDuplicate, st)
  else
    match st.lookupSlot session_id with
    | none => (.error .SessionNotFound, st)
    | some none => (.error .SessionBusy, st.promote session_id)
    | some (some s) =>
      let st1 := st.promote session_id
      (.ok (), ServiceManager.trim
        { st1 with entries := (new_session_id, some s.fork) :: st1.entries })

/-- Embedding of `ServiceManager::drop_`: pop the id; success exactly when it was
present (idle or busy). -/
def ServiceManager.drop_ (st : ServiceManager) (id : String) :
    Except Error Unit × ServiceManager :=
  match st.lookupSlot id with
  | some _ => (.ok (), { st with entries := st.entries.eraseP (fun e => e.1 == id) })
  | none => (.error .SessionNotFound, st)

/-! Theorems: lemmas about the embedding and the claim results. -/

theorem vocabLookup_eq_foldl (words : List (List Nat)) (w : List Nat) :
    vocabLookup words w = words.enum.foldl (lookupStep w) none := rfl

theorem foldl_lookupStep_none (w : List Nat) (l : List (Nat × List Nat))
    (h : ∀ e ∈ l, e.2.isPrefixOf w = false) :
    l.foldl (lookupStep w) none = none := by
  induction l with
  | nil => rfl
  | cons e l ih =>
    have he : e.2.isPrefixOf w = false := h e (List.mem_cons_self ..)
    simp only [List.foldl_cons, lookupStep, he, Bool.false_eq_true, if_false]
    exact ih fun x hx => h x (List.mem_cons_of_mem _ hx)

/-- If no vocabulary piece is a byte prefix of the query, the trie misses. -/
theorem vocabLookup_none (words : List (List Nat)) (w : List Nat)
    (h : ∀ p ∈ words, p.isPrefixOf w = false) :
    vocabLookup words w = none := by
  rw [vocabLookup_eq_foldl]
  refine foldl_lookupStep_none w _ fun e he => h e.2 ?_
  have := List.enum_map_snd words
  exact this ▸ List.mem_map_of_mem Prod.snd he

theorem foldl_lookupStep_prop (w : List Nat) (Q : Nat × List Nat → Prop)
    (l : List (Nat × List Nat)) (hl : ∀ e ∈ l, e.2.isPrefixOf w = true → Q e) :
    ∀ acc, (∀ tp, acc = some tp → Q tp) →
      ∀ tp, l.foldl (lookupStep w) acc = some tp → Q tp := by
  induction l with
  | nil => intro acc hacc tp h; exact hacc tp h
  | cons e l ih =>
    intro acc hacc tp h
    refine ih (fun x hx => hl x (List.mem_cons_of_mem _ hx)) _ ?_ tp h
    intro tp' htp'
    unfold lookupStep at htp'
    by_cases hp : e.2.isPrefixOf w = true
    · simp only [hp, if_true] at htp'
      cases acc with
      | none =>
        have h2 : some e = some tp' := htp'
        injection h2 with h3
        exact h3 ▸ hl e (List.mem_cons_self ..) hp
      | some b =>
        have h2 : (if b.2.length ≤ e.2.length then some e else some b) = some tp' := htp'
        by_cases hlen : b.2.length ≤ e.2.length
        · simp only [hlen, if_true] at h2
          injection h2 with h3
          exact h3 ▸ hl e (List.mem_cons_self ..) hp
        · simp only [hlen, if_false] at h2
          exact hacc tp' h2
    · simp only [Bool.not_eq_true] at hp
      simp only [hp, Bool.false_eq_true, if_false] at htp'
      exact hacc tp' htp'

/-- A trie hit returns a vocabulary word that is a prefix of the query. -/
theorem vocabLookup_mem (words : List (List Nat)) (w : List Nat) (tp : Nat × List Nat)
    (h : vocabLookup words w = some tp) :
    tp.2 ∈ words ∧ tp.2.isPrefixOf w = true := by
  rw [vocabLookup_eq_foldl] at h
  refine foldl_lookupStep_prop w (fun e => e.2 ∈ words ∧ e.2.isPrefixOf w = true) _
    (fun e he hp => ⟨?_, hp⟩) none (by intro tp h; cases h) tp h
  have := List.enum_map_snd words
  exact this ▸ List.mem_map_of_mem Prod.snd he

theorem charLen_pos (b : Nat) : 0 < charLen b := by
  unfold charLen
  split
  · exact Nat.one_pos
  · split
    · exact Nat.one_pos
    · split
      · exact Nat.two_pos
      · split
        · exact Nat.succ_pos 2
        · exact Nat.succ_pos 3

/-- The encode loop result only depends on the fuel through a lower bound:
any fuel at least the text length gives the run with exact fuel.  Needs all
pieces nonempty (an empty piece makes the source loop forever). -/
theorem encodeLoop_fuel (words : List (List Nat)) (maxLen : Nat)
    (hne : ∀ p ∈ words, p ≠ []) :
    ∀ fuel text, text.length ≤ fuel →
      encodeLoop words maxLen fuel text = encodeLoop words maxLen text.length text := by
  intro fuel
  induction fuel using Nat.strong_induction_on with
  | _ fuel ih =>
    intro text hlen
    cases text with
    | nil => cases fuel <;> rfl
    | cons b rest =>
      cases fuel with
      | zero => simp at hlen
      | succ f =>
        have hlf : rest.length ≤ f := by
          simpa using hlen
        simp only [List.length_cons]
        rw [encodeLoop, encodeLoop]
        by_cases hg : ((b :: rest).length > maxLen && !isCharBoundary (b :: rest) maxLen) = true
        · simp only [hg, if_true]
        · simp only [hg, Bool.false_eq_true, if_false]
          cases hvl : vocabLookup words
              (if (b :: rest).length > maxLen then (b :: rest).take maxLen else b :: rest) with
          | none =>
            dsimp only
            have hk : 0 < charLen b := charLen_pos b
            have hdl : ((b :: rest).drop (charLen b)).length ≤ rest.length := by
              simp only [List.length_drop, List.length_cons]
              omega
            rw [ih f (Nat.lt_succ_self f) _ (le_trans hdl hlf),
              ih rest.length (Nat.lt_succ_of_le hlf) _ hdl]
          | some tp =>
            dsimp only
            have hk : 0 < tp.2.length :=
              List.length_pos.mpr (hne tp.2 (vocabLookup_mem words _ tp hvl).1)
            have hdl : ((b :: rest).drop tp.2.length).length ≤ rest.length := by
              simp only [List.length_drop, List.length_cons]
              omega
            rw [ih f (Nat.lt_succ_self f) _ (le_trans hdl hlf),
              ih rest.length (Nat.lt_succ_of_le hlf) _ hdl]

/-- With both flags off, `encode` is exactly the matching loop. -/
theorem encode_false_false (v : VocabTxt) (text : List Nat) :
    v.encode text false false = encodeLoop v.words v.max_piece_len text.length text := by
  unfold VocabTxt.encode
  cases encodeLoop v.words v.max_piece_len text.length text <;> simp

/-- C2: the spec asserts `decode(encode(text, false, false))` reproduces
`text` for every UTF-8 input over a byte-fallback vocabulary, and in
particular that encode terminates without error.  The code breaks this in
two ways.  First, on `"aaaaaα"` (no piece matches, length 7 exceeds
`max_piece_len = 6`) the slice `&text[..max_piece_len]` falls inside the
two-byte `α` and panics — modelled as `none`.  Second, on the literal text
`"<0x00>"` the trie matches the byte-fallback placeholder piece, which
`decode` unescapes to the raw byte `0x00`, so the concatenated decodes are
`[0x00] ≠ "<0x00>"`. -/
theorem encode_roundtrip_code_bug :
    byteVocab.encode [97, 97, 97, 97, 97, 206, 177] false false = none
    ∧ (byteVocab.encode [60, 48, 120, 48, 48, 62] false false).map
        (fun ts => (ts.map byteVocab.decode).flatten) = some [0]
    ∧ [0] ≠ [60, 48, 120, 48, 48, 62] := by
  refine ⟨by decide, by decide, by decide⟩

/-- C4 as stated is false: there is an input on which no vocabulary piece is
a prefix of the remaining text, yet encode does not consume a code point
and emit byte-fallback tokens — it panics slicing `&text[..max_piece_len]`
inside the multi-byte `α` of `"aaaaaα"` (modelled as `none`, so no token
list at all is produced). -/
theorem byte_fallback_counterexample :
    (∀ p ∈ byteVocab.words, p.isPrefixOf [97, 97, 97, 97, 97, 206, 177] = false)
    ∧ byteVocab.encode [97, 97, 97, 97, 97, 206, 177] false false = none := by
  refine ⟨by decide, by decide⟩

/-- C4 amended: whenever no vocabulary piece is a prefix of the remaining
input AND the `max_piece_len` window boundary does not split a code point
(either the input fits in the window, or byte `max_piece_len` is a char
boundary), encode consumes exactly one UTF-8 code point and emits one token
per byte of that code point with id `b + 3`, then continues on the rest. -/
theorem byte_fallback_step (v : VocabTxt) (b : Nat) (rest : List Nat)
    (hnp : ∀ p ∈ v.words, p.isPrefixOf (b :: rest) = false)
    (hwin : (b :: rest).length ≤ v.max_piece_len
      ∨ isCharBoundary (b :: rest) v.max_piece_len = true) :
    v.encode (b :: rest) false false
      = (v.encode ((b :: rest).drop (charLen b)) false false).map
          ((((b :: rest).take (charLen b)).map (· + 3)) ++ ·) := by
  have hne : ∀ p ∈ v.words, p ≠ [] := by
    intro p hp hcon
    have := hnp p hp
    rw [hcon] at this
    simp [List.isPrefixOf] at this
  rw [encode_false_false, encode_false_false]
  simp only [List.length_cons]
  rw [encodeLoop]
  have hg : ((b :: rest).length > v.max_piece_len
      && !isCharBoundary (b :: rest) v.max_piece_len) = false := by
    rcases hwin with h | h
    · have h2 : decide ((b :: rest).length > v.max_piece_len) = false :=
        decide_eq_false (by omega)
      rw [h2, Bool.false_and]
    · rw [h, Bool.not_true, Bool.and_false]
  simp only [hg, Bool.false_eq_true, if_false]
  have hvl : vocabLookup v.words
      (if (b :: rest).length > v.max_piece_len
        then (b :: rest).take v.max_piece_len else b :: rest) = none := by
    apply vocabLookup_none
    intro p hp
    by_contra hcon
    rw [Bool.not_eq_false, List.isPrefixOf_iff_prefix] at hcon
    have hpre : p <+: b :: rest := by
      rcases (by split <;> first | exact Or.inl rfl | exact Or.inr rfl :
        (if (b :: rest).length > v.max_piece_len
          then (b :: rest).take v.max_piece_len else b :: rest)
            = (b :: rest).take v.max_piece_len
          ∨ (if (b :: rest).length > v.max_piece_len
            then (b :: rest).take v.max_piece_len else b :: rest) = b :: rest) with heq | heq
      · exact (heq ▸ hcon).trans ( List.take_prefix _ _)
      · exact heq ▸ hcon
    have := hnp p hp
    rw [← List.isPrefixOf_iff_prefix] at hpre
    rw [hpre] at this
    cases this
  rw [hvl]
  dsimp only
  rw [encodeLoop_fuel v.words v.max_piece_len hne rest.length _ (by
    simp only [List.length_drop, List.length_cons]
    have := charLen_pos b
    omega)]

/-- Witness for the amended C4 at the specification's literal scenario:
tokenizing `"α"` (bytes `0xCE 0xB1`) against the byte-fallback vocabulary,
which misses, yields exactly `[0xCE + 3, 0xB1 + 3] = [209, 180]`. -/
theorem byte_fallback_step_witness :
    ((∀ p ∈ byteVocab.words, p.isPrefixOf [206, 177] = false)
      ∧ ([206, 177] : List Nat).length ≤ byteVocab.max_piece_len)
    ∧ byteVocab.encode [206, 177] false false
        = (byteVocab.encode (([206, 177] : List Nat).drop (charLen 206)) false false).map
            (((([206, 177] : List Nat).take (charLen 206)).map (· + 3)) ++ ·) :=
  ⟨⟨by decide, by decide⟩,
    byte_fallback_step byteVocab 206 [177] (by decide) (Or.inl (by decide))⟩

/-- What `copyRows` does when the destination is strictly below the source:
cursors advance by `n`; rows below `dst` and at or above `src + n` are
untouched; row `dst + k` receives the original row `src + k`. -/
theorem copyRows_spec {α : Type} :
    ∀ (n src dst : Nat) (f : Nat → α), dst < src →
      (copyRows n src dst f).1 = src + n
      ∧ (copyRows n src dst f).2.1 = dst + n
      ∧ (∀ p, p < dst → (copyRows n src dst f).2.2 p = f p)
      ∧ (∀ k, k < n → (copyRows n src dst f).2.2 (dst + k) = f (src + k))
      ∧ (∀ p, src + n ≤ p → (copyRows n src dst f).2.2 p = f p) := by
  intro n
  induction n with
  | zero =>
    intro src dst f h
    exact ⟨rfl, rfl, fun p _ => rfl, fun k hk => absurd hk (Nat.not_lt_zero k),
      fun p _ => rfl⟩
  | succ n ih =>
    intro src dst f h
    obtain ⟨e1, e2, w1, w2, w3⟩ := ih (src + 1) (dst + 1) (Function.update f dst (f src))
      (by omega)
    rw [copyRows]
    refine ⟨by rw [e1]; omega, by rw [e2]; omega, ?_, ?_, ?_⟩
    · intro p hp
      rw [w1 p (by omega), Function.update_apply, if_neg (by omega)]
    · intro k hk
      cases k with
      | zero =>
        have h0 := w1 dst (by omega)
        simp only [Nat.add_zero, h0, Function.update_same]
      | succ j =>
        have hj : dst + (j + 1) = (dst + 1) + j := by omega
        rw [hj, w2 j (by omega), Function.update_apply, if_neg (by omega)]
        exact congrArg f (by omega)
    · intro p hp
      rw [w3 p (by omega), Function.update_apply, if_neg (by omega)]

/-- What the second decode loop does, given `num_decode ≤ num_query`
per block, `dst ≤ src`, and a buffer still original from `src` up: cursors
advance by the query/decode totals, rows below the initial `dst` are
untouched, and the `totalDecode` rows from `dst` up are exactly the
trailing rows of each remaining block. -/
theorem decodeMove_spec {α : Type} (f0 : Nat → α) :
    ∀ (ms : List DecodingMeta) (src dst : Nat) (f : Nat → α),
      (∀ m ∈ ms, m.num_decode ≤ m.num_query) →
      dst ≤ src →
      (∀ p, src ≤ p → f p = f0 p) →
      (decodeMove ms src dst f).1 = src + totalQuery ms
      ∧ (decodeMove ms src dst f).2.1 = dst + totalDecode ms
      ∧ (∀ p, p < dst → (decodeMove ms src dst f).2.2 p = f p)
      ∧ (List.range (totalDecode ms)).map (fun i => (decodeMove ms src dst f).2.2 (dst + i))
          = bufTrailing ms f0 src := by
  intro ms
  induction ms with
  | nil =>
    intro src dst f _ _ _
    exact ⟨by simp [decodeMove, totalQuery], by simp [decodeMove, totalDecode],
      fun p _ => rfl, by simp [decodeMove, totalDecode, bufTrailing]⟩
  | cons m ms ih =>
    intro src dst f hle hds hreads
    have hmle : m.num_decode ≤ m.num_query := hle m (List.mem_cons_self ..)
    have hq : totalQuery (m :: ms) = m.num_query + totalQuery ms := by
      simp [totalQuery]
    have hd : totalDecode (m :: ms) = m.num_decode + totalDecode ms := by
      simp [totalDecode]
    rw [decodeMove]
    dsimp only
    by_cases hbr : src + (m.num_query - m.num_decode) > dst
    · rw [if_pos hbr]
      obtain ⟨e1, e2, w1, w2, w3⟩ :=
        copyRows_spec m.num_decode (src + (m.num_query - m.num_decode)) dst f hbr
      rw [e1, e2]
      obtain ⟨r1, r2, r3, r4⟩ := ih (src + (m.num_query - m.num_decode) + m.num_decode)
        (dst + m.num_decode)
        (copyRows m.num_decode (src + (m.num_query - m.num_decode)) dst f).2.2
        (fun x hx => hle x (List.mem_cons_of_mem _ hx))
        (by omega)
        (fun p hp => by rw [w3 p hp]; exact hreads p (by omega))
      refine ⟨by rw [r1, hq]; omega, by rw [r2, hd]; omega, ?_, ?_⟩
      · intro p hp
        rw [r3 p (by omega), w1 p hp]
      · rw [hd, List.range_add, List.map_append, List.map_map, bufTrailing]
        congr 1
        · apply List.map_congr_left
          intro i hi
          have hi' := List.mem_range.mp hi
          rw [r3 (dst + i) (by omega), w2 i hi', hreads _ (by omega)]
        · refine Eq.trans (List.map_congr_left ?_) (by rw [r4]; congr 1; omega)
          intro j _
          simp only [Function.comp_apply]
          exact congrArg _ (by omega)
    · rw [if_neg hbr]
      have hq0 : m.num_query - m.num_decode = 0 := by omega
      have hsd : dst = src := by omega
      obtain ⟨r1, r2, r3, r4⟩ := ih (src + (m.num_query - m.num_decode) + m.num_decode)
        (dst + m.num_decode) f
        (fun x hx => hle x (List.mem_cons_of_mem _ hx))
        (by omega)
        (fun p hp => hreads p (by omega))
      refine ⟨by rw [r1, hq]; omega, by rw [r2, hd]; omega, ?_, ?_⟩
      · intro p hp
        exact r3 p (by omega)
      · rw [hd, List.range_add, List.map_append, List.map_map, bufTrailing]
        congr 1
        · apply List.map_congr_left
          intro i hi
          have hi' := List.mem_range.mp hi
          rw [r3 (dst + i) (by omega), hreads _ (by omega)]
          exact congrArg f0 (by omega)
        · refine Eq.trans (List.map_congr_left ?_) (by rw [r4]; congr 1; omega)
          intro j _
          simp only [Function.comp_apply]
          exact congrArg _ (by omega)

/-- The first loop run to exhaustion: all blocks skip, `begin` accumulates
every `num_query`, `src`/`dst` stay `0`. -/
theorem decodeScan_all_zero :
    ∀ (ms : List DecodingMeta) (bg : Nat), (∀ m ∈ ms, m.num_decode = 0) →
      decodeScan ms bg = (bg + totalQuery ms, 0, 0, []) := by
  intro ms
  induction ms with
  | nil => intro bg _; simp [decodeScan, totalQuery]
  | cons m ms ih =>
    intro bg h
    have hm : m.num_decode = 0 := h m (List.mem_cons_self ..)
    rw [decodeScan, if_neg (by omega), ih (bg + m.num_query)
      (fun x hx => h x (List.mem_cons_of_mem _ hx))]
    have : bg + m.num_query + totalQuery ms = bg + totalQuery (m :: ms) := by
      simp [totalQuery]; omega
    rw [this]

/-- The first loop breaking at the first block with a positive
`num_decode`. -/
theorem decodeScan_first :
    ∀ (pre : List DecodingMeta) (m : DecodingMeta) (rest : List DecodingMeta) (bg : Nat),
      (∀ x ∈ pre, x.num_decode = 0) → 0 < m.num_decode →
      decodeScan (pre ++ m :: rest) bg
        = (bg + totalQuery pre + m.num_query - m.num_decode,
           bg + totalQuery pre + m.num_query,
           bg + totalQuery pre + m.num_query, rest) := by
  intro pre
  induction pre with
  | nil =>
    intro m rest bg _ hm
    rw [List.nil_append, decodeScan, if_pos hm]
    simp [totalQuery]
  | cons a pre ih =>
    intro m rest bg hpre hm
    have ha : a.num_decode = 0 := hpre a (List.mem_cons_self ..)
    rw [List.cons_append, decodeScan, if_neg (by omega),
      ih m rest (bg + a.num_query) (fun x hx => hpre x (List.mem_cons_of_mem _ hx)) hm]
    have : bg + a.num_query + totalQuery pre = bg + totalQuery (a :: pre) := by
      simp [totalQuery]; omega
    rw [this]

/-- Decomposition at the first block with a positive `num_decode`. -/
theorem exists_first_decode :
    ∀ (ms : List DecodingMeta), (∃ m ∈ ms, 0 < m.num_decode) →
      ∃ pre m rest, ms = pre ++ m :: rest ∧ (∀ x ∈ pre, x.num_decode = 0)
        ∧ 0 < m.num_decode := by
  intro ms
  induction ms with
  | nil => rintro ⟨m, hm, _⟩; cases hm
  | cons a l ih =>
    intro h
    by_cases ha : 0 < a.num_decode
    · exact ⟨[], a, l, rfl, by simp, ha⟩
    · have hl : ∃ m ∈ l, 0 < m.num_decode := by
        rcases h with ⟨m, hm, hd⟩
        rcases List.mem_cons.mp hm with rfl | hm
        · exact absurd hd ha
        · exact ⟨m, hm, hd⟩
      obtain ⟨pre, m, rest, heq, hpre, hm⟩ := ih hl
      refine ⟨a :: pre, m, rest, by rw [heq, List.cons_append], ?_, hm⟩
      intro x hx
      rcases List.mem_cons.mp hx with rfl | hx
      · omega
      · exact hpre x hx

/-- Blocks that decode nothing contribute nothing to the trailing rows,
shifting only the base. -/
theorem bufTrailing_zero_pre {α : Type} :
    ∀ (pre l : List DecodingMeta) (f0 : Nat → α) (b : Nat),
      (∀ x ∈ pre, x.num_decode = 0) →
      bufTrailing (pre ++ l) f0 b = bufTrailing l f0 (b + totalQuery pre) := by
  intro pre
  induction pre with
  | nil => intro l f0 b _; simp [totalQuery]
  | cons a pre ih =>
    intro l f0 b h
    have ha : a.num_decode = 0 := h a (List.mem_cons_self ..)
    rw [List.cons_append, bufTrailing, ha, List.range_zero, List.map_nil, List.nil_append,
      ih l f0 (b + a.num_query) (fun x hx => h x (List.mem_cons_of_mem _ hx))]
    congr 1
    simp [totalQuery]
    omega

/-- Reading the trailing rows off the row list agrees with the
specification-side `trailingRows`. -/
theorem bufTrailing_eq_trailingRows {α : Type} (rows : List α) (d0 : α) :
    ∀ (ms : List DecodingMeta) (b : Nat),
      (∀ m ∈ ms, m.num_decode ≤ m.num_query) →
      b + totalQuery ms ≤ rows.length →
      bufTrailing ms (fun p => rows.getD p d0) b = trailingRows ms (rows.drop b) := by
  intro ms
  induction ms with
  | nil => intro b _ _; rfl
  | cons m ms ih =>
    intro b hdq hlen
    have hmle : m.num_decode ≤ m.num_query := hdq m (List.mem_cons_self ..)
    have hq : totalQuery (m :: ms) = m.num_query + totalQuery ms := by simp [totalQuery]
    rw [bufTrailing, trailingRows]
    congr 1
    · apply List.ext_getElem
      · simp only [List.length_map, List.length_range, List.length_drop, List.length_take]
        omega
      · intro i h1 h2
        simp only [List.length_map, List.length_range] at h1
        simp only [List.length_drop, List.length_take] at h2
        simp only [List.getElem_map, List.getElem_range, List.getElem_drop, List.getElem_take]
        rw [List.getD_eq_getElem _ _ (by omega)]
        congr 1
        omega
    · rw [List.drop_drop, ih (b + m.num_query) (fun x hx => hdq x (List.mem_cons_of_mem _ hx))
        (by omega)]

/-- C7 as stated is false in its `M = 0` clause: with one block of one
query row decoding nothing, `M = 0` but the total row count is positive, so
`dst = 0 ≠ 1 = begin` skips the zero-row early return and the final slice
`[begin, dst)` has inverted bounds — the source panics (modelled `none`)
instead of returning a zero-row tensor. -/
theorem decode_head_counterexample :
    Transformer.decode 7 5 [⟨1, 0⟩] [42] 0 = none := by decide

/-- C7 amended: under the claimed hypotheses, when at least one block
decodes (so `M > 0`), decode compacts exactly the trailing `num_decode`
rows of each block into one contiguous run, in order, and returns logits of
shape `[M, V]`; the zero-row `[0, d]` early return happens when the hidden
state has no rows at all (then `M = 0` as well).  In the remaining case —
`M = 0` with a nonzero number of rows — the source panics. -/
theorem decode_head_compaction {α : Type} (d V : Nat) (metas : List DecodingMeta)
    (rows : List α) (d0 : α)
    (hdq : ∀ m ∈ metas, m.num_decode ≤ m.num_query)
    (hrows : rows.length = totalQuery metas) :
    ((∃ m ∈ metas, 0 < m.num_decode) →
      Transformer.decode d V metas rows d0
        = some (trailingRows metas rows, totalDecode metas, V))
    ∧ (totalQuery metas = 0 → Transformer.decode d V metas rows d0 = some ([], 0, d)) := by
  constructor
  · intro hex
    obtain ⟨pre, m, rest, heq, hpre, hm⟩ := exists_first_decode metas hex
    subst heq
    have hmle : m.num_decode ≤ m.num_query := hdq m (by simp)
    have hrle : ∀ x ∈ rest, x.num_decode ≤ x.num_query := by
      intro x hx
      exact hdq x (by simp [hx])
    have hdpre : totalDecode pre = 0 := by
      unfold totalDecode
      rw [List.sum_eq_zero_iff]
      intro x hx
      obtain ⟨y, hy, rfl⟩ := List.mem_map.mp hx
      exact hpre y hy
    have hqsplit : totalQuery (pre ++ m :: rest)
        = totalQuery pre + (m.num_query + totalQuery rest) := by
      simp [totalQuery]
    have hdsplit : totalDecode (pre ++ m :: rest) = m.num_decode + totalDecode rest := by
      simp only [totalDecode, List.map_append, List.sum_append, List.map_cons, List.sum_cons]
      rw [show ((pre.map (·.num_decode)).sum = 0) from hdpre]
      omega
    unfold Transformer.decode
    rw [decodeScan_first pre m rest 0 hpre hm]
    dsimp only
    obtain ⟨r1, r2, r3, r4⟩ := decodeMove_spec (fun p => rows.getD p d0) rest
      (0 + totalQuery pre + m.num_query) (0 + totalQuery pre + m.num_query)
      (fun p => rows.getD p d0) hrle le_rfl (fun _ _ => rfl)
    rw [r2]
    rw [if_neg (by omega), if_neg (by omega)]
    have hM : 0 + totalQuery pre + m.num_query + totalDecode rest
        - (0 + totalQuery pre + m.num_query - m.num_decode)
        = m.num_decode + totalDecode rest := by omega
    rw [hM]
    rw [hdsplit]
    refine congrArg some (congrArg (fun l => (l, m.num_decode + totalDecode rest, V)) ?_)
    rw [List.range_add, List.map_append, List.map_map]
    have htrail : trailingRows (pre ++ m :: rest) rows
        = bufTrailing (pre ++ m :: rest) (fun p => rows.getD p d0) 0 := by
      rw [bufTrailing_eq_trailingRows rows d0 _ 0 hdq (by omega), List.drop_zero]
    rw [htrail, bufTrailing_zero_pre pre _ _ 0 hpre, bufTrailing]
    congr 1
    · apply List.map_congr_left
      intro i hi
      have hi' := List.mem_range.mp hi
      have hr := r3 (0 + totalQuery pre + m.num_query - m.num_decode + i) (by omega)
      rw [hr]
      exact congrArg (fun p => rows.getD p d0) (by omega)
    · refine Eq.trans (List.map_congr_left ?_) r4
      intro j _
      simp only [Function.comp_apply]
      exact congrArg _ (by omega)
  · intro h0
    have hall : ∀ m ∈ metas, m.num_decode = 0 := by
      intro m hm
      have hq0 : m.num_query = 0 := by
        have := List.sum_eq_zero_iff.mp h0 m.num_query (List.mem_map_of_mem _ hm)
        exact this
      have := hdq m hm
      omega
    unfold Transformer.decode
    rw [decodeScan_all_zero metas 0 hall, h0]
    dsimp only
    rw [decodeMove]
    dsimp only
    rw [if_pos rfl]

/-- Witness for the amended C7 on the batch `[(2,1), (3,2)]` over rows
`[10..14]`: the compacted run is `[11, 13, 14]` and the logits shape is
`[3, V]`. -/
theorem decode_head_compaction_witness :
    ((∀ m ∈ [DecodingMeta.mk 2 1, DecodingMeta.mk 3 2], m.num_decode ≤ m.num_query)
      ∧ ([10, 11, 12, 13, 14] : List Nat).length
          = totalQuery [DecodingMeta.mk 2 1, DecodingMeta.mk 3 2]
      ∧ (∃ m ∈ [DecodingMeta.mk 2 1, DecodingMeta.mk 3 2], 0 < m.num_decode))
    ∧ Transformer.decode 7 5 [DecodingMeta.mk 2 1, DecodingMeta.mk 3 2]
        ([10, 11, 12, 13, 14] : List Nat) 0
      = some (trailingRows [DecodingMeta.mk 2 1, DecodingMeta.mk 3 2]
          ([10, 11, 12, 13, 14] : List Nat),
        totalDecode [DecodingMeta.mk 2 1, DecodingMeta.mk 3 2], 5) :=
  ⟨⟨by decide, by decide, by decide⟩,
    (decode_head_compaction 7 5 _ _ 0 (by decide) (by decide)).1 (by decide)⟩

theorem foldl_copy_apply {α : Type} (src : Nat → α) (st : List Nat) :
    ∀ (ws : List (List Nat)) (f0 : Nat → α) (o : Nat),
      (ws.foldl (fun f i => Function.update f (flatIndex st i) (src (flatIndex st i))) f0) o
        = if ∃ i ∈ ws, flatIndex st i = o then src o else f0 o := by
  intro ws
  induction ws with
  | nil => intro f0 o; simp
  | cons w ws ih =>
    intro f0 o
    rw [List.foldl_cons, ih]
    by_cases h1 : ∃ i ∈ ws, flatIndex st i = o
    · rw [if_pos h1, if_pos ⟨h1.choose, List.mem_cons_of_mem _ h1.choose_spec.1, h1.choose_spec.2⟩]
    · rw [if_neg h1]
      by_cases h2 : flatIndex st w = o
      · rw [if_pos ⟨w, List.mem_cons_self .., h2⟩]
        rw [Function.update_apply, if_pos h2.symm, h2]
      · rw [Function.update_apply, if_neg fun hc => h2 hc.symm, if_neg]
        rintro ⟨i, hi, hio⟩
        rcases List.mem_cons.mp hi with rfl | hi
        · exact h2 hio
        · exact h1 ⟨i, hi, hio⟩

theorem mem_allIdx_cons (i n : Nat) (idx : List Nat) (ns : List Nat)
    (hi : i < n) (hidx : idx ∈ allIdx ns) : (i :: idx) ∈ allIdx (n :: ns) := by
  unfold allIdx
  rw [List.mem_flatMap]
  exact ⟨i, List.mem_range.mpr hi, List.mem_map_of_mem _ hidx⟩

/-- C6: `duplicate_cache` on a cache of shape `[L, 2, H, S, D]` with
`pos ≤ S` succeeds, returns a fresh tensor of the same dtype and shape, and
every element with sequence index `s < pos` (for every layer, K/V half, KV
head and head-dim position) equals the source element at the same
multi-index.  The source tensor is a read-only argument and is untouched;
elements with `s ≥ pos` are left at the allocation fill. -/
theorem duplicate_cache_copies_prefix {α : Type} (cache : Tensor α) (pos L H S D : Nat)
    (d0 : α) (hshape : cache.shape = [L, 2, H, S, D]) (hpos : pos ≤ S) :
    ∃ ans, Transformer.duplicate_cache cache pos d0 = some ans
      ∧ ans.dtype = cache.dtype ∧ ans.shape = cache.shape
      ∧ ∀ l k h s d, l < L → k < 2 → h < H → s < pos → d < D →
          ans.data (flatIndex (stridesOf cache.shape) [l, k, h, s, d])
            = cache.data (flatIndex (stridesOf cache.shape) [l, k, h, s, d]) := by
  unfold Transformer.duplicate_cache
  rw [hshape]
  dsimp only
  rw [if_pos hpos]
  refine ⟨_, rfl, rfl, rfl, ?_⟩
  intro l k h s d hl hk hh hs hd
  dsimp only
  rw [foldl_copy_apply]
  rw [if_pos]
  refine ⟨[l, k, h, s, d], ?_, rfl⟩
  exact mem_allIdx_cons l L _ _ hl (mem_allIdx_cons k 2 _ _ hk (mem_allIdx_cons h H _ _ hh
    (mem_allIdx_cons s pos _ _ hs (mem_allIdx_cons d D _ _ hd (by unfold allIdx; simp)))))

/-- Witness for C6 at a concrete cache of shape `[1, 2, 1, 2, 1]` with
`pos = 1`: the copied prefix element at multi-index `[0, 0, 0, 0, 0]`
equals the source. -/
theorem duplicate_cache_copies_prefix_witness :
    (Tensor.mk 0 [1, 2, 1, 2, 1] (fun o => o)).shape = [1, 2, 1, 2, 1] ∧ 1 ≤ 2
    ∧ ∃ ans, Transformer.duplicate_cache (Tensor.mk 0 [1, 2, 1, 2, 1] (fun o => o)) 1 99
        = some ans
      ∧ ans.dtype = 0 ∧ ans.shape = [1, 2, 1, 2, 1]
      ∧ ∀ l k h s d, l < 1 → k < 2 → h < 1 → s < 1 → d < 1 →
          ans.data (flatIndex (stridesOf [1, 2, 1, 2, 1]) [l, k, h, s, d])
            = flatIndex (stridesOf [1, 2, 1, 2, 1]) [l, k, h, s, d] :=
  ⟨rfl, by decide,
    duplicate_cache_copies_prefix (Tensor.mk 0 [1, 2, 1, 2, 1] (fun o => o)) 1 1 1 2 1 99
      rfl (by decide)⟩

theorem find?_eraseP_key (id k : String) (hne : k ≠ id) :
    ∀ (l : List (String × Option Session)),
      (l.eraseP (fun e => e.1 == id)).find? (fun e => e.1 == k)
        = l.find? (fun e => e.1 == k) := by
  intro l
  induction l with
  | nil => rfl
  | cons x l ih =>
    by_cases hx : x.1 = id
    · rw [List.eraseP_cons_of_pos (by simp [hx]),
        List.find?_cons_of_neg _ (by simp only [beq_iff_eq, hx]; exact fun hc => hne hc.symm)]
    · rw [List.eraseP_cons_of_neg (by simp [hx])]
      by_cases hxk : x.1 = k
      · rw [List.find?_cons_of_pos _ (by simp [hxk]), List.find?_cons_of_pos _ (by simp [hxk])]
      · rw [List.find?_cons_of_neg _ (by simp [hxk]), List.find?_cons_of_neg _ (by simp [hxk]),
          ih]

/-- LRU promotion does not change what any key maps to. -/
theorem lookupSlot_promote (st : ServiceManager) (id k : String) :
    (st.promote id).lookupSlot k = st.lookupSlot k := by
  unfold ServiceManager.promote
  cases hf : st.entries.find? (fun e => e.1 == id) with
  | none => rfl
  | some e =>
    have he : e.1 = id := by
      have := List.find?_some hf
      simpa using this
    unfold ServiceManager.lookupSlot
    dsimp only
    by_cases hk : k = id
    · subst hk
      rw [List.find?_cons_of_pos _ (by simp [he]), hf]
    · rw [List.find?_cons_of_neg _ (by simp only [beq_iff_eq, he]; exact fun hc => hk hc.symm),
        find?_eraseP_key id k hk]

theorem find?_map_set (id k : String) (v : Option Session) :
    ∀ (l : List (String × Option Session)),
      (l.map (fun e => if e.1 == id then (e.1, v) else e)).find? (fun e => e.1 == k)
        = if k = id then (l.find? (fun e => e.1 == id)).map (fun e => (e.1, v))
          else l.find? (fun e => e.1 == k) := by
  intro l
  induction l with
  | nil => by_cases hk : k = id <;> simp [hk]
  | cons x l ih =>
    simp only [List.map_cons]
    by_cases hx : x.1 = id
    · rw [if_pos (by simp [hx])]
      by_cases hk : k = id
      · subst hk
        rw [if_pos rfl, List.find?_cons_of_pos _ (by simp [hx]),
          List.find?_cons_of_pos _ (by simp [hx])]
        simp
      · rw [if_neg hk,
          List.find?_cons_of_neg _ (by simp only [beq_iff_eq, hx]; exact fun hc => hk hc.symm),
          List.find?_cons_of_neg _ (by simp only [beq_iff_eq, hx]; exact fun hc => hk hc.symm),
          ih, if_neg hk]
    · rw [if_neg (by simp [hx])]
      by_cases hk : k = id
      · subst hk
        rw [if_pos rfl, List.find?_cons_of_neg _ (by simp [hx]),
          List.find?_cons_of_neg _ (by simp [hx]), ih, if_pos rfl]
      · rw [if_neg hk]
        by_cases hxk : x.1 = k
        · rw [List.find?_cons_of_pos _ (by simp [hxk]), List.find?_cons_of_pos _ (by simp [hxk])]
        · rw [List.find?_cons_of_neg _ (by simp [hxk]), List.find?_cons_of_neg _ (by simp [hxk]),
            ih, if_neg hk]

/-- Overwriting the slot of `id` rewrites exactly that key's value. -/
theorem lookupSlot_setSlot (st : ServiceManager) (id : String) (v : Option Session) (k : String) :
    (st.setSlot id v).lookupSlot k
      = if k = id then (st.lookupSlot id).map (fun _ => v) else st.lookupSlot k := by
  unfold ServiceManager.setSlot ServiceManager.lookupSlot
  dsimp only
  rw [find?_map_set]
  by_cases hk : k = id
  · rw [if_pos hk, if_pos hk]
    cases st.entries.find? (fun e => e.1 == id) <;> rfl
  · rw [if_neg hk, if_neg hk]

/-- Returning a session to a still-empty slot of a still-present id
repopulates it and touches nothing else. -/
theorem restore_of_busy (st : ServiceManager) (id : String) (s : Session)
    (h : st.lookupSlot id = some none) :
    ∃ st2, st.restore id s = some st2
      ∧ st2.lookupSlot id = some (some s)
      ∧ ∀ k, k ≠ id → st2.lookupSlot k = st.lookupSlot k := by
  unfold ServiceManager.restore
  rw [h]
  refine ⟨_, rfl, ?_, ?_⟩
  · rw [lookupSlot_setSlot, if_pos rfl, lookupSlot_promote, h]
    rfl
  · intro k hk
    rw [lookupSlot_setSlot, if_neg hk, lookupSlot_promote]

/-- C1: an infer call with a present `session_id` and `dialog_pos = p > 0`
on an existing idle session whose revert fails (target beyond the current
dialog position) restores the session to its idle slot before returning
and reports `InvalidDialogPos` carrying the current dialog position; every
key of the registry maps to exactly what it did before, so subsequent calls
observe the unchanged session. -/
theorem infer_failed_revert_restores (st : ServiceManager) (g : Gen) (id : String)
    (s : Session) (p : Nat) (msgs : List String) (t : Option Int) (k : Option Nat)
    (tp : Option Int)
    (hidle : st.lookupSlot id = some (some s))
    (hfail : s.dialog_pos < p + 1) :
    ∃ st2, st.infer g ⟨msgs, some id, some (p + 1), t, k, tp⟩
        = some (.error (.InvalidDialogPos s.dialog_pos), st2)
      ∧ ∀ k', st2.lookupSlot k' = st.lookupSlot k' := by
  unfold ServiceManager.infer
  dsimp only [Option.getD]
  rw [hidle]
  dsimp only
  have hrev : s.revert (p + 1) = none := by
    unfold Session.revert
    rw [if_neg (by unfold Session.dialog_pos at hfail; omega)]
  rw [hrev]
  dsimp only
  have hb : ((st.promote id).setSlot id none).lookupSlot id = some none := by
    rw [lookupSlot_setSlot, if_pos rfl, lookupSlot_promote, hidle]
    rfl
  obtain ⟨st2, hr, hr1, hr2⟩ := restore_of_busy _ id s hb
  rw [hr]
  refine ⟨st2, rfl, ?_⟩
  intro k'
  by_cases hk : k' = id
  · subst hk
    rw [hr1, hidle]
  · rw [hr2 k' hk, lookupSlot_setSlot, if_neg hk, lookupSlot_promote]

/-- Witness for C1: a one-session registry, revert target 1 on an empty
dialog. -/
theorem infer_failed_revert_restores_witness :
    ((ServiceManager.mk [("s1", some (Session.mk [] ⟨0, 0, 0⟩))] none).lookupSlot "s1"
        = some (some (Session.mk [] ⟨0, 0, 0⟩))
      ∧ (Session.mk [] ⟨0, 0, 0⟩).dialog_pos < 0 + 1)
    ∧ ∃ st2, (ServiceManager.mk [("s1", some (Session.mk [] ⟨0, 0, 0⟩))] none).infer
          (Gen.mk (fun _ => []) (fun _ => []) (fun _ => ["x"]))
          ⟨[], some "s1", some (0 + 1), none, none, none⟩
        = some (.error (.InvalidDialogPos (Session.mk [] ⟨0, 0, 0⟩).dialog_pos), st2)
      ∧ ∀ k', st2.lookupSlot k'
          = (ServiceManager.mk [("s1", some (Session.mk [] ⟨0, 0, 0⟩))] none).lookupSlot k' :=
  ⟨⟨by decide, by decide⟩,
    infer_failed_revert_restores _ (Gen.mk (fun _ => []) (fun _ => []) (fun _ => ["x"]))
      "s1" (Session.mk [] ⟨0, 0, 0⟩) 0 [] none none none (by decide) (by decide)⟩

/-- C8: an infer call without a session id and with dialog position 0 never
returns an error and leaves the registry untouched; the returned channel
carries generated fragments only when the message count is odd — with an
even count (including zero) no task is spawned and the channel is empty. -/
theorem infer_anonymous (st : ServiceManager) (g : Gen) (msgs : List String)
    (t : Option Int) (k : Option Nat) (tp : Option Int) :
    (∃ out, st.infer g ⟨msgs, none, some 0, t, k, tp⟩ = some (.ok out, st))
    ∧ (msgs.length % 2 = 0 →
        st.infer g ⟨msgs, none, some 0, t, k, tp⟩ = some (.ok [], st)) := by
  constructor
  · unfold ServiceManager.infer
    dsimp only [Option.getD]
    by_cases h : msgs.length % 2 = 1
    · rw [if_pos h]
      exact ⟨_, rfl⟩
    · rw [if_neg h]
      exact ⟨[], rfl⟩
  · intro h
    unfold ServiceManager.infer
    dsimp only [Option.getD]
    rw [if_neg (by omega)]

/-- Witness for C8 with two messages (even): the channel is empty and the
registry is unchanged. -/
theorem infer_anonymous_witness :
    (["hi", "there"].length % 2 = 0)
    ∧ (∃ out, (ServiceManager.mk [] none).infer
          (Gen.mk (fun _ => []) (fun _ => []) (fun _ => ["x"]))
          ⟨["hi", "there"], none, some 0, none, none, none⟩
        = some (.ok out, ServiceManager.mk [] none))
    ∧ (ServiceManager.mk [] none).infer
          (Gen.mk (fun _ => []) (fun _ => []) (fun _ => ["x"]))
          ⟨["hi", "there"], none, some 0, none, none, none⟩
        = some (.ok [], ServiceManager.mk [] none) :=
  ⟨by decide,
    (infer_anonymous (ServiceManager.mk [] none)
      (Gen.mk (fun _ => []) (fun _ => []) (fun _ => ["x"])) ["hi", "there"] none none none).1,
    (infer_anonymous (ServiceManager.mk [] none)
      (Gen.mk (fun _ => []) (fun _ => []) (fun _ => ["x"])) ["hi", "there"] none none none).2
      (by decide)⟩

/-- Popping the first entry of a key removes the key entirely when keys are
unique. -/
theorem find?_eraseP_self (id : String) :
    ∀ (l : List (String × Option Session)), (l.map (·.1)).Nodup →
      (l.eraseP (fun e => e.1 == id)).find? (fun e => e.1 == id) = none := by
  intro l
  induction l with
  | nil => intro _; rfl
  | cons x l ih =>
    intro hnd
    rw [List.map_cons, List.nodup_cons] at hnd
    by_cases hx : x.1 = id
    · rw [List.eraseP_cons_of_pos (by simp [hx])]
      rw [List.find?_eq_none]
      intro e he
      simp only [beq_iff_eq]
      intro hc
      exact hnd.1 (hx ▸ hc ▸ List.mem_map_of_mem (·.1) he)
    · rw [List.eraseP_cons_of_neg (by simp [hx]),
        List.find?_cons_of_neg _ (by simp [hx]), ih hnd.2]

/-- C3: at most one task can hold a session.  While the slot of `id` is
`Busy` (`none`), any infer call naming `id` — with dialog position 0 or
positive — returns `SessionBusy` and leaves every key's slot value
unchanged; and returning a session repopulates the slot only if it is
still empty: restoring onto an empty slot fills it, while restoring onto a
non-empty slot fails the source's `assert!` (no normal return). -/
theorem session_exclusive_borrow (st : ServiceManager) (g : Gen) (id : String)
    (msgs : List String) (t : Option Int) (k : Option Nat) (tp : Option Int) (p : Nat)
    (s : Session)
    (hbusy : st.lookupSlot id = some none) :
    (∃ st2, st.infer g ⟨msgs, some id, some 0, t, k, tp⟩
        = some (.error .SessionBusy, st2)
      ∧ ∀ k', st2.lookupSlot k' = st.lookupSlot k')
    ∧ (∃ st2, st.infer g ⟨msgs, some id, some (p + 1), t, k, tp⟩
        = some (.error .SessionBusy, st2)
      ∧ ∀ k', st2.lookupSlot k' = st.lookupSlot k')
    ∧ (∃ st2, st.restore id s = some st2 ∧ st2.lookupSlot id = some (some s))
    ∧ (∀ (st' : ServiceManager) (s1 : Session), st'.lookupSlot id = some (some s1) →
        st'.restore id s = none) := by
  have hvals : ∀ k', ((st.promote id).setSlot id none).lookupSlot k' = st.lookupSlot k' := by
    intro k'
    by_cases hk : k' = id
    · subst hk
      rw [lookupSlot_setSlot, if_pos rfl, lookupSlot_promote, hbusy]
      rfl
    · rw [lookupSlot_setSlot, if_neg hk, lookupSlot_promote]
  refine ⟨?_, ?_, ?_, ?_⟩
  · unfold ServiceManager.infer
    dsimp only [Option.getD]
    unfold ServiceManager.getOrInsertTake
    rw [hbusy]
    dsimp only
    exact ⟨_, rfl, hvals⟩
  · unfold ServiceManager.infer
    dsimp only [Option.getD]
    rw [hbusy]
    dsimp only
    exact ⟨_, rfl, hvals⟩
  · obtain ⟨st2, hr, hr1, _⟩ := restore_of_busy st id s hbusy
    exact ⟨st2, hr, hr1⟩
  · intro st' s1 h
    unfold ServiceManager.restore
    rw [h]

/-- Witness for C3: a registry where `s1` is busy and `s2` idle. -/
theorem session_exclusive_borrow_witness :
    ((ServiceManager.mk [("s1", none), ("s2", some (Session.mk [] ⟨0, 0, 0⟩))] none).lookupSlot
        "s1" = some none)
    ∧ ((∃ st2, (ServiceManager.mk [("s1", none), ("s2", some (Session.mk [] ⟨0, 0, 0⟩))]
          none).infer (Gen.mk (fun _ => []) (fun _ => []) (fun _ => ["x"]))
          ⟨["m"], some "s1", some 0, none, none, none⟩
        = some (.error .SessionBusy, st2)
      ∧ ∀ k', st2.lookupSlot k'
          = (ServiceManager.mk [("s1", none), ("s2", some (Session.mk [] ⟨0, 0, 0⟩))]
              none).lookupSlot k')
    ∧ (∃ st2, (ServiceManager.mk [("s1", none), ("s2", some (Session.mk [] ⟨0, 0, 0⟩))]
          none).infer (Gen.mk (fun _ => []) (fun _ => []) (fun _ => ["x"]))
          ⟨["m"], some "s1", some (0 + 1), none, none, none⟩
        = some (.error .SessionBusy, st2)
      ∧ ∀ k', st2.lookupSlot k'
          = (ServiceManager.mk [("s1", none), ("s2", some (Session.mk [] ⟨0, 0, 0⟩))]
              none).lookupSlot k')
    ∧ (∃ st2, (ServiceManager.mk [("s1", none), ("s2", some (Session.mk [] ⟨0, 0, 0⟩))]
          none).restore "s1" (Session.mk [[7]] ⟨0, 0, 0⟩) = some st2
        ∧ st2.lookupSlot "s1" = some (some (Session.mk [[7]] ⟨0, 0, 0⟩)))
    ∧ (∀ (st' : ServiceManager) (s1 : Session), st'.lookupSlot "s1" = some (some s1) →
        st'.restore "s1" (Session.mk [[7]] ⟨0, 0, 0⟩) = none)) :=
  ⟨by decide,
    session_exclusive_borrow
      (ServiceManager.mk [("s1", none), ("s2", some (Session.mk [] ⟨0, 0, 0⟩))] none)
      (Gen.mk (fun _ => []) (fun _ => []) (fun _ => ["x"]))
      "s1" ["m"] none none none 0 (Session.mk [[7]] ⟨0, 0, 0⟩) (by decide)⟩

/-- C9: `drop(id)` succeeds exactly when `id` is present — idle or busy —
and otherwise returns `SessionNotFound`; after a successful drop the id is
gone (unique keys), so a borrowed session returned later is discarded:
`restore` on the dropped id leaves the registry unchanged. -/
theorem drop_discards_session (st : ServiceManager) (id : String) (v : Option Session)
    (hnd : (st.entries.map (·.1)).Nodup) :
    (st.lookupSlot id = some v →
      st.drop_ id = (.ok (), ⟨st.entries.eraseP (fun e => e.1 == id), st.cap⟩)
      ∧ (st.drop_ id).2.lookupSlot id = none
      ∧ ∀ s1, (st.drop_ id).2.restore id s1 = some (st.drop_ id).2)
    ∧ (st.lookupSlot id = none → st.drop_ id = (.error .SessionNotFound, st)) := by
  constructor
  · intro h
    have hpop : st.drop_ id = (.ok (), ⟨st.entries.eraseP (fun e => e.1 == id), st.cap⟩) := by
      unfold ServiceManager.drop_
      rw [h]
    have hgone : (st.drop_ id).2.lookupSlot id = none := by
      rw [hpop]
      unfold ServiceManager.lookupSlot
      dsimp only
      rw [find?_eraseP_self id st.entries hnd]
      rfl
    refine ⟨hpop, hgone, ?_⟩
    intro s1
    unfold ServiceManager.restore
    rw [hgone]
  · intro h
    unfold ServiceManager.drop_
    rw [h]

/-- Witness for C9: dropping a busy session; its later restore is a
no-op. -/
theorem drop_discards_session_witness :
    (((ServiceManager.mk [("s1", none)] none).entries.map (·.1)).Nodup
      ∧ (ServiceManager.mk [("s1", none)] none).lookupSlot "s1" = some none)
    ∧ ((ServiceManager.mk [("s1", none)] none).drop_ "s1"
        = (.ok (), ⟨(ServiceManager.mk [("s1", none)] none).entries.eraseP
            (fun e => e.1 == "s1"), none⟩)
      ∧ ((ServiceManager.mk [("s1", none)] none).drop_ "s1").2.lookupSlot "s1" = none
      ∧ ∀ s1, (((ServiceManager.mk [("s1", none)] none).drop_ "s1").2.restore "s1" s1)
          = some ((ServiceManager.mk [("s1", none)] none).drop_ "s1").2) :=
  ⟨⟨by decide, by decide⟩,
    (drop_discards_session (ServiceManager.mk [("s1", none)] none) "s1" none
      (by decide)).1 (by decide)⟩

theorem lookupSlot_head (id : String) (v : Option Session)
    (l : List (String × Option Session)) (cap : Option Nat) :
    (ServiceManager.mk ((id, v) :: l) cap).lookupSlot id = some v := by
  unfold ServiceManager.lookupSlot
  dsimp only
  rw [List.find?_cons_of_pos _ (by simp)]
  rfl

theorem promote_cap (st : ServiceManager) (id : String) : (st.promote id).cap = st.cap := by
  unfold ServiceManager.promote
  cases st.entries.find? (fun e => e.1 == id) <;> rfl

/-- C5: `fork(src, new)` checks the target id first (`SessionDuplicate`
whenever `new` already exists), then requires the source to exist
(`SessionNotFound`) and to be idle (`SessionBusy`); otherwise it succeeds,
the new id now holding an independent idle deep copy, and any
capacity-forced LRU eviction is silent — the call still returns success. -/
theorem fork_semantics (st : ServiceManager) (src new : String) (s : Session)
    (hcap : ∀ c, st.cap = some c → 0 < c) :
    ((st.lookupSlot new).isSome → st.fork src new = (.error .SessionDuplicate, st))
    ∧ (st.lookupSlot new = none → st.lookupSlot src = none →
        st.fork src new = (.error .SessionNotFound, st))
    ∧ (st.lookupSlot new = none → st.lookupSlot src = some none →
        st.fork src new = (.error .SessionBusy, st.promote src))
    ∧ (st.lookupSlot new = none → st.lookupSlot src = some (some s) →
        (st.fork src new).1 = .ok ()
        ∧ (st.fork src new).2.lookupSlot new = some (some s.fork)) := by
  refine ⟨?_, ?_, ?_, ?_⟩
  · intro hdup
    unfold ServiceManager.fork
    rw [if_pos hdup]
  · intro hnew hsrc
    unfold ServiceManager.fork
    rw [hnew]
    simp only [Option.isSome_none, Bool.false_eq_true, if_false]
    rw [hsrc]
  · intro hnew hsrc
    unfold ServiceManager.fork
    rw [hnew]
    simp only [Option.isSome_none, Bool.false_eq_true, if_false]
    rw [hsrc]
  · intro hnew hsrc
    unfold ServiceManager.fork
    rw [hnew]
    simp only [Option.isSome_none, Bool.false_eq_true, if_false]
    rw [hsrc]
    dsimp only
    refine ⟨rfl, ?_⟩
    unfold ServiceManager.trim
    dsimp only
    cases hc : (st.promote src).cap with
    | none => exact lookupSlot_head new (some s.fork) _ _
    | some c =>
      dsimp only
      by_cases hlen : c < ((new, some s.fork) :: (st.promote src).entries).length
      · rw [if_pos hlen]
        have hc1 : 0 < c := hcap c (by rw [← promote_cap st src]; exact hc)
        cases hE : (st.promote src).entries with
        | nil =>
          exfalso
          rw [hE] at hlen
          simp at hlen
          omega
        | cons y ys =>
          rw [List.dropLast_cons₂]
          exact lookupSlot_head new (some s.fork) _ _
      · rw [if_neg hlen]
        exact lookupSlot_head new (some s.fork) _ _

/-- Witness for C5: forking the idle `s1` into `s2` in a capacity-1
registry evicts silently and still succeeds with the copy present. -/
theorem fork_semantics_witness :
    ((∀ c, (ServiceManager.mk [("s1", some (Session.mk [[3]] ⟨0, 0, 0⟩))] (some 1)).cap
        = some c → 0 < c)
      ∧ (ServiceManager.mk [("s1", some (Session.mk [[3]] ⟨0, 0, 0⟩))] (some 1)).lookupSlot
          "s2" = none
      ∧ (ServiceManager.mk [("s1", some (Session.mk [[3]] ⟨0, 0, 0⟩))] (some 1)).lookupSlot
          "s1" = some (some (Session.mk [[3]] ⟨0, 0, 0⟩)))
    ∧ ((ServiceManager.mk [("s1", some (Session.mk [[3]] ⟨0, 0, 0⟩))] (some 1)).fork
          "s1" "s2").1 = .ok ()
      ∧ ((ServiceManager.mk [("s1", some (Session.mk [[3]] ⟨0, 0, 0⟩))] (some 1)).fork
          "s1" "s2").2.lookupSlot "s2"
        = some (some (Session.mk [[3]] ⟨0, 0, 0⟩).fork) :=
  ⟨⟨fun c hc => by cases hc; decide, by decide, by decide⟩,
    (fork_semantics (ServiceManager.mk [("s1", some (Session.mk [[3]] ⟨0, 0, 0⟩))] (some 1))
      "s1" "s2" (Session.mk [[3]] ⟨0, 0, 0⟩)
      (fun c hc => by cases hc; decide)).2.2.2 (by decide) (by decide)⟩

/-- The generation body leaves the sampling parameters exactly as the
override prologue set them: `extend` and `chat` do not touch them. -/
theorem inferBody_sample (g : Gen) (t : Option Int) (k : Option Nat) (p : Option Int)
    (msgs : List String) (s : Session) :
    (inferBody g t k p msgs s).2.sample = (applySample t k p s).sample := by
  unfold inferBody Session.extend Session.chat
  dsimp only
  split <;> rfl

/-- The full named-session zero-position infer flow on an idle session:
returns the channel content, and afterwards the slot holds the session
produced by the body run on the reverted (empty-dialog) session. -/
theorem infer_zero_idle (st : ServiceManager) (g : Gen) (id : String) (s : Session)
    (msgs : List String) (t : Option Int) (k : Option Nat) (p : Option Int)
    (hidle : st.lookupSlot id = some (some s)) :
    ∃ out st2, st.infer g ⟨msgs, some id, some 0, t, k, p⟩ = some (.ok out, st2)
      ∧ st2.lookupSlot id
          = some (some (inferBody g t k p msgs { s with turns := [] }).2) := by
  unfold ServiceManager.infer
  dsimp only [Option.getD]
  unfold ServiceManager.getOrInsertTake
  rw [hidle]
  dsimp only
  have hrev : s.revert 0 = some { s with turns := [] } := by
    unfold Session.revert
    rw [if_pos (Nat.zero_le _)]
    rfl
  rw [hrev]
  dsimp only
  have hb : ((st.promote id).setSlot id none).lookupSlot id = some none := by
    rw [lookupSlot_setSlot, if_pos rfl, lookupSlot_promote, hidle]
    rfl
  obtain ⟨st2, hr, hr1, _⟩ := restore_of_busy _ id _ hb
  rw [hr]
  exact ⟨_, st2, rfl, hr1⟩

/-- C10: supplied `temperature`/`top_k`/`top_p` overrides are written into
the session's stored sampling parameters before generation (the override
step changes nothing but the sampling parameters), they persist in the
registry once the session is returned, and a later infer call on the same
session that omits every override still generates with — and re-stores —
the previously set values. -/
theorem sample_overrides_persist (st : ServiceManager) (g : Gen) (id : String) (s : Session)
    (tv : Int) (kv : Nat) (pv : Int) (msgs msgs2 : List String)
    (hidle : st.lookupSlot id = some (some s)) :
    (∀ (s' : Session) (t : Option Int) (k : Option Nat) (p : Option Int),
      (applySample t k p s').turns = s'.turns
      ∧ (applySample (some tv) k p s').sample.temperature = tv
      ∧ (applySample t (some kv) p s').sample.top_k = kv
      ∧ (applySample t k (some pv) s').sample.top_p = pv
      ∧ applySample none none none s' = s')
    ∧ ∃ out st2 s2, st.infer g ⟨msgs, some id, some 0, some tv, some kv, some pv⟩
          = some (.ok out, st2)
        ∧ st2.lookupSlot id = some (some s2)
        ∧ s2.sample = ⟨tv, kv, pv⟩
        ∧ ∃ out2 st3 s3, st2.infer g ⟨msgs2, some id, some 0, none, none, none⟩
            = some (.ok out2, st3)
          ∧ st3.lookupSlot id = some (some s3)
          ∧ s3.sample = ⟨tv, kv, pv⟩ := by
  constructor
  · intro s' t kk p
    refine ⟨?_, ?_, ?_, ?_, rfl⟩
    · unfold applySample
      cases t <;> cases kk <;> cases p <;> rfl
    · unfold applySample
      cases kk <;> cases p <;> rfl
    · unfold applySample
      cases t <;> cases p <;> rfl
    · unfold applySample
      cases t <;> cases kk <;> rfl
  · obtain ⟨out, st2, hi, hl⟩ :=
      infer_zero_idle st g id s msgs (some tv) (some kv) (some pv) hidle
    refine ⟨out, st2, _, hi, hl, ?_, ?_⟩
    · rw [inferBody_sample]
      rfl
    · obtain ⟨out2, st3, hi2, hl2⟩ := infer_zero_idle st2 g id _ msgs2 none none none hl
      refine ⟨out2, st3, _, hi2, hl2, ?_⟩
      simp only [inferBody_sample]
      rfl

/-- Witness for C10: override `(temperature, top_k, top_p) = (2, 3, 4)` on
session `s1`, then call again with no overrides; the stored parameters stay
`(2, 3, 4)`. -/
theorem sample_overrides_persist_witness :
    ((ServiceManager.mk [("s1", some (Session.mk [] ⟨0, 0, 0⟩))] none).lookupSlot "s1"
        = some (some (Session.mk [] ⟨0, 0, 0⟩)))
    ∧ ((∀ (s' : Session) (t : Option Int) (k : Option Nat) (p : Option Int),
      (applySample t k p s').turns = s'.turns
      ∧ (applySample (some 2) k p s').sample.temperature = 2
      ∧ (applySample t (some 3) p s').sample.top_k = 3
      ∧ (applySample t k (some 4) s').sample.top_p = 4
      ∧ applySample none none none s' = s')
    ∧ ∃ out st2 s2, (ServiceManager.mk [("s1", some (Session.mk [] ⟨0, 0, 0⟩))] none).infer
          (Gen.mk (fun _ => []) (fun _ => []) (fun _ => ["x"]))
          ⟨["m"], some "s1", some 0, some 2, some 3, some 4⟩
          = some (.ok out, st2)
        ∧ st2.lookupSlot "s1" = some (some s2)
        ∧ s2.sample = ⟨2, 3, 4⟩
        ∧ ∃ out2 st3 s3, st2.infer (Gen.mk (fun _ => []) (fun _ => []) (fun _ => ["x"]))
            ⟨["m2"], some "s1", some 0, none, none, none⟩
            = some (.ok out2, st3)
          ∧ st3.lookupSlot "s1" = some (some s3)
          ∧ s3.sample = ⟨2, 3, 4⟩) :=
  ⟨by decide,
    sample_overrides_persist (ServiceManager.mk [("s1", some (Session.mk [] ⟨0, 0, 0⟩))] none)
      (Gen.mk (fun _ => []) (fun _ => []) (fun _ => ["x"])) "s1" (Session.mk [] ⟨0, 0, 0⟩)
      2 3 4 ["m"] ["m2"] (by decide)⟩
